import Mathlib

/-!
Verification of the potion-derivation engine of `skyrim-requiem-alchemy`.

The development shallowly embeds the consolidated implementation in
`src/skyrim_alchemy/alchemy.py` (together with `utils.py`), which is the
complete variant of the engine cited by all claims.  Python floats are
modelled as real numbers for the pricing formula; inside the combinatorial
engine the (float) price stored on each `Potency` is modelled as an exact
rational field, since the engine only ever compares prices.  Python lists
are Lean lists; Python sets and dicts of objects are modelled as lists of
structural values together with the well-formedness facts (distinct
ingredient names, one trait per effect per ingredient) that the loader
establishes and that make structural equality coincide with Python's
object identity.
-/

namespace SkyrimAlchemy

/-! ### `utils.value_formula` (src/skyrim_alchemy/utils.py, lines 7-14)

`value_formula` initialises both factors to `1` and overwrites each with the
actual argument when that argument is truthy, i.e. nonzero.  Python's float
`pow` with exponent `1.1` is modelled by real `rpow`. -/

noncomputable def value_formula (magnitude : ℝ) (duration : ℤ) : ℝ :=
  let magnitude_factor : ℝ := if magnitude ≠ 0 then magnitude else 1
  let duration_factor : ℝ := if duration ≠ 0 then (duration : ℝ) / 10 else 1
  (magnitude_factor * duration_factor) ^ (1.1 : ℝ)

/-- Real-valued view of an `Effect` for the pricing layer (name, type and
`base_cost` as read from `effects.csv`). -/
structure EffectR where
  name : String
  effect_type : String
  base_cost : ℝ

/-- Real-valued view of a `Potency` (alchemy.py, class `Potency`): the
canonical (effect, magnitude, duration) triple plus the price computed
eagerly at construction time. -/
structure PotencyR where
  effect : EffectR
  magnitude : ℝ
  duration : ℤ
  price : ℝ

/-- `Potency.__init__` (alchemy.py, lines 171-177): the stored price is
`value_formula(magnitude, duration) * effect.base_cost`. -/
noncomputable def PotencyR.init (effect : EffectR) (magnitude : ℝ) (duration : ℤ) : PotencyR :=
  { effect := effect
    magnitude := magnitude
    duration := duration
    price := value_formula magnitude duration * effect.base_cost }

/-- C4: `value_formula(m, d)` equals `pow(mf * df, 1.1)` with `mf = m` when
`m ≠ 0` and `1` otherwise, `df = d/10` when `d ≠ 0` and `1` otherwise; in
particular `value_formula 0 0 = 1` and `value_formula 10 10 = 10 ^ 1.1`;
and a `Potency` initialised from `(effect, m, d)` stores price
`value_formula m d * effect.base_cost`. -/
theorem value_formula_spec :
    (∀ (m : ℝ) (d : ℤ), value_formula m d =
      ((if m ≠ 0 then m else 1) * (if d ≠ 0 then (d : ℝ) / 10 else 1)) ^ (1.1 : ℝ))
    ∧ value_formula 0 0 = 1
    ∧ value_formula 10 10 = (10 : ℝ) ^ (1.1 : ℝ)
    ∧ ∀ (e : EffectR) (m : ℝ) (d : ℤ),
        (PotencyR.init e m d).price = value_formula m d * e.base_cost := by
  refine ⟨fun m d => rfl, ?_, ?_, fun e m d => rfl⟩
  · show ((if (0 : ℝ) ≠ 0 then (0 : ℝ) else 1) *
        (if (0 : ℤ) ≠ 0 then ((0 : ℤ) : ℝ) / 10 else 1)) ^ (1.1 : ℝ) = 1
    norm_num
  · show ((if (10 : ℝ) ≠ 0 then (10 : ℝ) else 1) *
        (if (10 : ℤ) ≠ 0 then ((10 : ℤ) : ℝ) / 10 else 1)) ^ (1.1 : ℝ) = (10 : ℝ) ^ (1.1 : ℝ)
    norm_num

/-- C9 counterexample: monotonicity in the magnitude fails across the zero
special case: `0 ≤ 1/2` but `value_formula 0 10 = 1 > value_formula (1/2) 10
= (1/2) ^ 1.1`. -/
theorem value_formula_not_monotone :
    (0 : ℝ) ≤ (1 / 2 : ℝ) ∧ ¬ value_formula 0 10 ≤ value_formula (1 / 2) 10 := by
  constructor
  · norm_num
  · intro h
    have h0 : value_formula 0 10 = 1 := by
      show ((if (0 : ℝ) ≠ 0 then (0 : ℝ) else 1) *
          (if (10 : ℤ) ≠ 0 then ((10 : ℤ) : ℝ) / 10 else 1)) ^ (1.1 : ℝ) = 1
      norm_num
    have h1 : value_formula (1 / 2) 10 = ((1 / 2 : ℝ)) ^ (1.1 : ℝ) := by
      show ((if (1 / 2 : ℝ) ≠ 0 then (1 / 2 : ℝ) else 1) *
          (if (10 : ℤ) ≠ 0 then ((10 : ℤ) : ℝ) / 10 else 1)) ^ (1.1 : ℝ) =
        ((1 / 2 : ℝ)) ^ (1.1 : ℝ)
      norm_num
    have hlt : ((1 / 2 : ℝ)) ^ (1.1 : ℝ) < 1 := by
      apply Real.rpow_lt_one (by norm_num) (by norm_num) (by norm_num)
    rw [h0, h1] at h
    exact absurd (lt_of_le_of_lt h hlt) (lt_irrefl 1)

/-- C9 amended: `value_formula` is monotone in the magnitude once the lower
magnitude is positive (the `m = 0` case is mapped to factor `1`, which
breaks monotonicity across zero) and the duration is nonnegative, and
monotone in the duration once the lower duration is positive and the
magnitude nonnegative. -/
theorem value_formula_monotone_of_pos :
    (∀ (d : ℤ) (m1 m2 : ℝ), 0 ≤ d → 0 < m1 → m1 ≤ m2 →
      value_formula m1 d ≤ value_formula m2 d)
    ∧ ∀ (m : ℝ) (d1 d2 : ℤ), 0 ≤ m → 0 < d1 → d1 ≤ d2 →
      value_formula m d1 ≤ value_formula m d2 := by
  constructor
  · intro d m1 m2 hd hm1 hm12
    have hm2 : 0 < m2 := lt_of_lt_of_le hm1 hm12
    have h1 : value_formula m1 d =
        (m1 * (if d ≠ 0 then (d : ℝ) / 10 else 1)) ^ (1.1 : ℝ) := by
      show ((if m1 ≠ 0 then m1 else 1) * _) ^ (1.1 : ℝ) = _
      rw [if_pos (ne_of_gt hm1)]
    have h2 : value_formula m2 d =
        (m2 * (if d ≠ 0 then (d : ℝ) / 10 else 1)) ^ (1.1 : ℝ) := by
      show ((if m2 ≠ 0 then m2 else 1) * _) ^ (1.1 : ℝ) = _
      rw [if_pos (ne_of_gt hm2)]
    rw [h1, h2]
    have hdf : 0 < (if d ≠ 0 then (d : ℝ) / 10 else 1) := by
      split
      · have hd' : (0 : ℤ) < d := lt_of_le_of_ne hd (by omega)
        positivity
      · norm_num
    exact Real.rpow_le_rpow (by positivity)
      (mul_le_mul_of_nonneg_right hm12 (le_of_lt hdf)) (by norm_num)
  · intro m d1 d2 hm hd1 hd12
    have hd2 : 0 < d2 := lt_of_lt_of_le hd1 hd12
    have h1 : value_formula m d1 =
        ((if m ≠ 0 then m else 1) * ((d1 : ℝ) / 10)) ^ (1.1 : ℝ) := by
      show ((if m ≠ 0 then m else 1) *
          (if d1 ≠ 0 then (d1 : ℝ) / 10 else 1)) ^ (1.1 : ℝ) = _
      rw [if_pos (by omega : d1 ≠ 0)]
    have h2 : value_formula m d2 =
        ((if m ≠ 0 then m else 1) * ((d2 : ℝ) / 10)) ^ (1.1 : ℝ) := by
      show ((if m ≠ 0 then m else 1) *
          (if d2 ≠ 0 then (d2 : ℝ) / 10 else 1)) ^ (1.1 : ℝ) = _
      rw [if_pos (by omega : d2 ≠ 0)]
    rw [h1, h2]
    have hmf : 0 < (if m ≠ 0 then m else 1) := by
      split
      · rename_i h
        exact lt_of_le_of_ne hm (Ne.symm h)
      · norm_num
    have hdd : (d1 : ℝ) / 10 ≤ (d2 : ℝ) / 10 := by
      have : (d1 : ℝ) ≤ (d2 : ℝ) := by exact_mod_cast hd12
      linarith
    exact Real.rpow_le_rpow (by positivity)
      (mul_le_mul_of_nonneg_left hdd (le_of_lt hmf)) (by norm_num)

/-- C9 witness: the amended monotonicity applied at `d = 10`, `m1 = 1`,
`m2 = 2`. -/
theorem value_formula_monotone_witness :
    (0 : ℤ) ≤ 10 ∧ (0 : ℝ) < 1 ∧ (1 : ℝ) ≤ 2 ∧
      value_formula 1 10 ≤ value_formula 2 10 :=
  ⟨by norm_num, by norm_num, by norm_num,
    value_formula_monotone_of_pos.1 10 1 2 (by norm_num) (by norm_num) (by norm_num)⟩

/-! ### Engine data model (alchemy.py)

Inside the combinatorial engine the price stored on a `Potency` is kept as
an exact rational: the engine only ever compares prices, never recomputes
them, so the float computed once at creation (characterised over ℝ by
`value_formula_spec`) is modelled as an abstract exact field.  `Trait`
refers to its ingredient by name (the ingredient's unique key), mirroring
the object back-pointer. -/

structure Effect where
  name : String
  effect_type : String
  base_cost : ℚ
deriving DecidableEq, Repr

structure Potency where
  effect : Effect
  magnitude : ℚ
  duration : ℤ
  price : ℚ
deriving DecidableEq, Repr

structure Trait where
  ingredient : String
  potency : Potency
  order : ℤ
deriving DecidableEq, Repr

structure Ingredient where
  name : String
  traits : List Trait
deriving DecidableEq, Repr

/-- First-occurrence deduplication: the order in which Python's
insertion-ordered dicts list their keys, and the cardinality of
`set(xs)` for structurally distinct objects. -/
def dedupFirst {α : Type} [DecidableEq α] : List α → List α
  | [] => []
  | x :: xs => x :: (dedupFirst xs).filter (fun y => decide (y ≠ x))

/-- Python's `max(xs, key=...)`: the first element attaining the maximal
key, in iteration order. -/
def pyMax {α : Type} (key : α → ℚ) : List α → Option α
  | [] => none
  | x :: xs => some (xs.foldl (fun best y => if key best < key y then y else best) x)

/-- `ing.traits_by_effects[e]` as built by `Trait.from_row` (alchemy.py,
line 162): a one-element set holding the ingredient's (last) trait for
effect `e`, empty when the ingredient does not exhibit `e`. -/
def Ingredient.traits_by_effects (ing : Ingredient) (e : Effect) : List Trait :=
  match (ing.traits.filter (fun t => decide (t.potency.effect = e))).getLast? with
  | some t => [t]
  | none => []

structure Potion where
  ingredients : List Ingredient
deriving DecidableEq, Repr

/-- `Potion.traits_by_effects` (alchemy.py, lines 208-214): the per-effect
union of the ingredients' `traits_by_effects` sets, as the function from an
effect to its traits.  Distinct ingredients contribute structurally
distinct traits (traits carry their ingredient's name), so the list union
models the Python set union. -/
def Potion.traits_by_effects (p : Potion) (e : Effect) : List Trait :=
  p.ingredients.flatMap (fun ing => ing.traits_by_effects e)

/-- The multiset of effect keys contributed by the ingredients, in
iteration order; `effectKeys` is the key list of the union dict
(first-occurrence order, as for a Python insertion-ordered dict). -/
def Potion.allEffects (p : Potion) : List Effect :=
  p.ingredients.flatMap (fun ing => ing.traits.map (fun t => t.potency.effect))

def Potion.effectKeys (p : Potion) : List Effect :=
  dedupFirst p.allEffects

/-- The winning potency for one effect group (alchemy.py, lines 218-224):
groups with at least two contributing traits select
`max({t.potency for t in traits}, key=price)`.  Python's set iteration
order is unspecified; it is modelled as first-occurrence order, and ties
between distinct equal-priced potencies resolve to the first one (the
order-dependence this creates is established separately). -/
def Potion.winner (p : Potion) (e : Effect) : Option Potency :=
  if 1 < (p.traits_by_effects e).length then
    pyMax (fun q => q.price) (dedupFirst ((p.traits_by_effects e).map (fun t => t.potency)))
  else none

/-- Sorting key comparison `p.effect.name`: Python compares strings
lexicographically by code point, i.e. by the order on the underlying
character list. -/
def nameLe (a b : Potency) : Prop := a.effect.name.data ≤ b.effect.name.data

instance : DecidableRel nameLe :=
  fun a b => inferInstanceAs (Decidable (a.effect.name.data ≤ b.effect.name.data))

instance : IsTotal Potency nameLe :=
  ⟨fun a b => le_total a.effect.name.data b.effect.name.data⟩

instance : IsTrans Potency nameLe := ⟨fun _ _ _ h1 h2 => le_trans h1 h2⟩

/-- `Potion.potencies` (alchemy.py, lines 216-232): the winning potencies
of the qualifying effect groups, sorted by effect name (Python's stable
`sorted` is modelled by stable insertion sort).  The final scan of
`Data.potions_by_potencies` for an `==` tuple only swaps the result for an
elementwise-identical existing tuple, so on values it is the identity and
is omitted. -/
def Potion.potencies (p : Potion) : List Potency :=
  List.insertionSort nameLe (p.effectKeys.filterMap p.winner)

def effNameLe (a b : Effect) : Prop := a.name.data ≤ b.name.data

instance : DecidableRel effNameLe :=
  fun a b => inferInstanceAs (Decidable (a.name.data ≤ b.name.data))

/-- `Potion.effects` (alchemy.py, lines 234-250): the qualifying effects
sorted by name (identity canonicalisation against
`Data.potions_by_effects` omitted as above). -/
def Potion.effects (p : Potion) : List Effect :=
  List.insertionSort effNameLe
    (p.effectKeys.filter (fun e => decide (1 < (p.traits_by_effects e).length)))

/-- `Potion.pure` (alchemy.py, lines 275-281): `pairwise` adjacent potencies
must agree on the effect type. -/
def pureList (ps : List Potency) : Bool :=
  (ps.zip ps.tail).all (fun q => decide (q.1.effect.effect_type = q.2.effect.effect_type))

def Potion.pure (p : Potion) : Bool :=
  pureList p.potencies

/-- `itertools.combinations(xs, 2)` in order. -/
def pairs {α : Type} : List α → List (α × α)
  | [] => []
  | x :: xs => xs.map (fun y => (x, y)) ++ pairs xs

/-- The mutable aggregate collections touched by `Potion.from_ingredients`:
`Data.potions`, the two grouping `defaultdict(list)`s (modelled as total
functions that are `[]` off their recorded keys) and the per-ingredient
potion lists (keyed by the ingredient's unique name). -/
structure AlchemyState where
  potions : List Potion
  potions_by_potencies : List Potency → List Potion
  potions_by_effects : List Effect → List Potion
  ing_potions : String → List Potion

/-- The insertions performed by `Potion.from_ingredients` on acceptance
(alchemy.py, lines 303-307). -/
def insertAccepted (potion : Potion) (s : AlchemyState) : AlchemyState :=
  { potions := s.potions ++ [potion]
    potions_by_potencies := fun k =>
      if k = potion.potencies then s.potions_by_potencies k ++ [potion]
      else s.potions_by_potencies k
    potions_by_effects := fun k =>
      if k = potion.effects then s.potions_by_effects k ++ [potion]
      else s.potions_by_effects k
    ing_potions := fun n =>
      if n ∈ potion.ingredients.map (fun i => i.name) then s.ing_potions n ++ [potion]
      else s.ing_potions n }

/-- `Potion.from_ingredients` (alchemy.py, lines 283-308).  The guard
compares `len(ingredients)` with `len(set(ingredients))`; the redundancy
loop's `if not mini_potion: continue` is dead code (a `Potion` object is
always truthy) and is omitted.  Returns the updated collections and the
`None`-or-potion result. -/
def Potion.from_ingredients (ingredients : List Ingredient) (s : AlchemyState) :
    AlchemyState × Option Potion :=
  if (dedupFirst ingredients).length < ingredients.length then (s, none)
  else
    let potion : Potion := ⟨ingredients⟩
    if potion.potencies = [] then (s, none)
    else if potion.pure = false then (s, none)
    else if potion.ingredients.length = 3 ∧
        ((pairs potion.ingredients).any fun pr =>
          decide ((Potion.mk [pr.1, pr.2]).potencies = potion.potencies)) = true then
      (s, none)
    else (insertAccepted potion s, some potion)

/-! ### Compatibility index and the potency store -/

/-- The reference data store: `Data.ingredients` and `Data.traits`. -/
structure Store where
  ingredients : List Ingredient
  traits : List Trait

/-- Back-pointer resolution: `trait.ingredient` as a lookup of the
ingredient's unique name in `Data.ingredients`. -/
def Store.getIngredient (st : Store) (n : String) : Option Ingredient :=
  st.ingredients.find? (fun i => decide (i.name = n))

/-- `ing.effects` as built by `Trait.from_row`: one entry appended per
trait. -/
def Ingredient.effectsList (ing : Ingredient) : List Effect :=
  ing.traits.map (fun t => t.potency.effect)

/-- `Ingredient.compatible_ingredients` (alchemy.py, lines 95-103): collect
`trait.ingredient` for every trait in `Data.traits` whose effect occurs in
`self.effects`, then `res.remove(self)` — which deletes only the first
occurrence of `self` (`List.erase`; Python raises when `self` is absent,
which cannot happen for an ingredient with at least one trait). -/
def Ingredient.compatible_ingredients (st : Store) (self : Ingredient) : List Ingredient :=
  ((st.traits.filter (fun t => decide (t.potency.effect ∈ self.effectsList))).filterMap
    (fun t => st.getIngredient t.ingredient)).erase self

/-- `Ingredient.compatible_ingredients` of the modular variant
(ingredient.py, lines 78-84): all other ingredients whose effect set meets
`self`'s (the sort by accessibility is omitted; it does not affect
membership). -/
def Ingredient.compatible_ingredients_set (st : Store) (self : Ingredient) : List Ingredient :=
  st.ingredients.filter (fun i =>
    decide ((i.effectsList.any (fun e => decide (e ∈ self.effectsList))) = true ∧ i ≠ self))

/-- The state owned by `Potency.create` (alchemy.py, lines 179-185): the
`functools.cache` table keyed by the argument triple, plus
`Data.potencies`. -/
structure PotencyStore where
  cache : List ((Effect × ℚ × ℤ) × Potency)
  potencies : List Potency

/-- `Potency.create`: on a cache hit return the cached instance unchanged;
otherwise construct the potency, record it in the cache and append it to
`Data.potencies`.  The float price computed by `Potency.__init__` is
abstracted by `priceFn` (its value over ℝ is characterised by
`value_formula_spec`). -/
def Potency.create (priceFn : Effect → ℚ → ℤ → ℚ) (e : Effect) (m : ℚ) (d : ℤ)
    (st : PotencyStore) : PotencyStore × Potency :=
  match st.cache.find? (fun kv => decide (kv.1 = (e, m, d))) with
  | some kv => (st, kv.2)
  | none =>
    let p : Potency := ⟨e, m, d, priceFn e m d⟩
    (⟨st.cache ++ [((e, m, d), p)], st.potencies ++ [p]⟩, p)

/-! ### Toolbox lemmas about `dedupFirst` and `pyMax` -/

theorem mem_dedupFirst {α : Type} [DecidableEq α] {a : α} :
    ∀ {l : List α}, a ∈ dedupFirst l ↔ a ∈ l
  | [] => Iff.rfl
  | x :: xs => by
    simp only [dedupFirst, List.mem_cons, List.mem_filter, decide_eq_true_eq]
    constructor
    · rintro (rfl | ⟨h, _⟩)
      · exact Or.inl rfl
      · exact Or.inr (mem_dedupFirst.1 h)
    · rintro (rfl | h)
      · exact Or.inl rfl
      · by_cases hx : a = x
        · exact Or.inl hx
        · exact Or.inr ⟨mem_dedupFirst.2 h, hx⟩

theorem nodup_dedupFirst {α : Type} [DecidableEq α] : ∀ (l : List α), (dedupFirst l).Nodup
  | [] => List.nodup_nil
  | x :: xs => by
    simp only [dedupFirst, List.nodup_cons]
    refine ⟨?_, (nodup_dedupFirst xs).filter _⟩
    intro hx
    rcases List.mem_filter.1 hx with ⟨-, hne⟩
    simp at hne

theorem dedupFirst_eq_nil {α : Type} [DecidableEq α] {l : List α} :
    dedupFirst l = [] ↔ l = [] := by
  cases l <;> simp [dedupFirst]

theorem length_dedupFirst_le {α : Type} [DecidableEq α] :
    ∀ (l : List α), (dedupFirst l).length ≤ l.length
  | [] => le_refl _
  | x :: xs => by
    simp only [dedupFirst, List.length_cons]
    have h1 := List.length_filter_le (fun y => decide (y ≠ x)) (dedupFirst xs)
    have h2 := length_dedupFirst_le xs
    omega

theorem dedupFirst_eq_self {α : Type} [DecidableEq α] : ∀ {l : List α}, l.Nodup → dedupFirst l = l
  | [], _ => rfl
  | x :: xs, h => by
    rcases List.nodup_cons.1 h with ⟨hx, hxs⟩
    simp only [dedupFirst, List.cons.injEq, true_and]
    rw [dedupFirst_eq_self hxs]
    apply List.filter_eq_self.2
    intro y hy
    simp only [decide_eq_true_eq]
    rintro rfl
    exact hx hy

theorem length_dedupFirst_lt {α : Type} [DecidableEq α] :
    ∀ {l : List α}, ¬ l.Nodup → (dedupFirst l).length < l.length
  | [], h => absurd List.nodup_nil h
  | x :: xs, h => by
    simp only [dedupFirst, List.length_cons]
    by_cases hx : x ∈ xs
    · have hxd : x ∈ dedupFirst xs := mem_dedupFirst.2 hx
      have hlt : ((dedupFirst xs).filter (fun y => decide (y ≠ x))).length <
          (dedupFirst xs).length := by
        apply List.length_filter_lt_length_iff_exists.2
        exact ⟨x, hxd, by simp⟩
      have hle := length_dedupFirst_le xs
      omega
    · have hxs : ¬ xs.Nodup := fun hnd => h (List.nodup_cons.2 ⟨hx, hnd⟩)
      have hlt := length_dedupFirst_lt hxs
      have hle := List.length_filter_le (fun y => decide (y ≠ x)) (dedupFirst xs)
      omega

theorem pyMax_go_spec {α : Type} (key : α → ℚ) :
    ∀ (l : List α) (a : α),
      (l.foldl (fun best y => if key best < key y then y else best) a = a ∨
        l.foldl (fun best y => if key best < key y then y else best) a ∈ l)
      ∧ key a ≤ key (l.foldl (fun best y => if key best < key y then y else best) a)
      ∧ ∀ y ∈ l, key y ≤ key (l.foldl (fun best y => if key best < key y then y else best) a)
  | [], a => ⟨Or.inl rfl, le_refl _, by simp⟩
  | y :: ys, a => by
    have IH := pyMax_go_spec key ys (if key a < key y then y else a)
    have hab : key a ≤ key (if key a < key y then y else a) := by
      split
      · rename_i hlt; exact le_of_lt hlt
      · exact le_refl _
    have hyb : key y ≤ key (if key a < key y then y else a) := by
      split
      · exact le_refl _
      · rename_i hlt; exact le_of_not_lt hlt
    simp only [List.foldl_cons]
    refine ⟨?_, le_trans hab IH.2.1, ?_⟩
    · rcases IH.1 with heq | hmem
      · rw [heq]
        split
        · exact Or.inr (List.mem_cons_self _ _)
        · exact Or.inl rfl
      · exact Or.inr (List.mem_cons_of_mem _ hmem)
    · intro z hz
      rcases List.mem_cons.1 hz with rfl | hz'
      · exact le_trans hyb IH.2.1
      · exact IH.2.2 z hz'

theorem pyMax_mem {α : Type} (key : α → ℚ) {l : List α} {x : α}
    (h : pyMax key l = some x) : x ∈ l := by
  cases l with
  | nil => simp [pyMax] at h
  | cons a as =>
    simp only [pyMax, Option.some.injEq] at h
    rcases (pyMax_go_spec key as a).1 with heq | hmem
    · rw [← h, heq]; exact List.mem_cons_self _ _
    · rw [← h]; exact List.mem_cons_of_mem _ hmem

theorem pyMax_le {α : Type} (key : α → ℚ) {l : List α} {x : α}
    (h : pyMax key l = some x) : ∀ y ∈ l, key y ≤ key x := by
  cases l with
  | nil => simp [pyMax] at h
  | cons a as =>
    simp only [pyMax, Option.some.injEq] at h
    intro y hy
    rcases List.mem_cons.1 hy with rfl | hy'
    · rw [← h]; exact (pyMax_go_spec key as y).2.1
    · rw [← h]; exact (pyMax_go_spec key as a).2.2 y hy'

theorem pyMax_isSome {α : Type} (key : α → ℚ) {l : List α} (h : l ≠ []) :
    (pyMax key l).isSome = true := by
  cases l with
  | nil => exact absurd rfl h
  | cons a as => simp [pyMax]

/-! ### Properties of the per-effect trait groups and winners -/

theorem mem_ing_traits_by_effects {ing : Ingredient} {e : Effect} {t : Trait}
    (ht : t ∈ ing.traits_by_effects e) : t ∈ ing.traits ∧ t.potency.effect = e := by
  unfold Ingredient.traits_by_effects at ht
  split at ht
  · rename_i t0 h
    simp only [List.mem_singleton] at ht
    subst ht
    have hmem := List.mem_of_getLast?_eq_some h
    rcases List.mem_filter.1 hmem with ⟨h1, h2⟩
    exact ⟨h1, of_decide_eq_true h2⟩
  · simp at ht

theorem length_ing_traits_by_effects (ing : Ingredient) (e : Effect) :
    (ing.traits_by_effects e).length =
      if ing.traits.any (fun t => decide (t.potency.effect = e)) then 1 else 0 := by
  unfold Ingredient.traits_by_effects
  split
  · rename_i t0 h
    have hne : ing.traits.filter (fun t => decide (t.potency.effect = e)) ≠ [] := by
      intro hnil
      rw [hnil] at h
      simp at h
    have hany : ing.traits.any (fun t => decide (t.potency.effect = e)) = true := by
      rw [List.any_eq_true]
      rcases List.exists_mem_of_ne_nil _ hne with ⟨t, htmem⟩
      rcases List.mem_filter.1 htmem with ⟨h1, h2⟩
      exact ⟨t, h1, h2⟩
    rw [if_pos hany]
    rfl
  · rename_i h
    have hnil := List.getLast?_eq_none_iff.1 h
    have hany : ¬ ing.traits.any (fun t => decide (t.potency.effect = e)) = true := by
      rw [List.any_eq_true]
      rintro ⟨t, htmem, hte⟩
      have hmem : t ∈ ing.traits.filter (fun t => decide (t.potency.effect = e)) :=
        List.mem_filter.2 ⟨htmem, hte⟩
      rw [hnil] at hmem
      simp at hmem
    rw [if_neg hany]
    rfl

theorem effect_of_mem_potion_traits {p : Potion} {e : Effect} {t : Trait}
    (h : t ∈ p.traits_by_effects e) : t.potency.effect = e := by
  rcases List.mem_flatMap.1 h with ⟨ing, _, ht⟩
  exact (mem_ing_traits_by_effects ht).2

theorem length_potion_traits_by_effects (ings : List Ingredient) (e : Effect) :
    (Potion.traits_by_effects ⟨ings⟩ e).length =
      ings.countP (fun ing => ing.traits.any (fun t => decide (t.potency.effect = e))) := by
  induction ings with
  | nil => rfl
  | cons ing rest IH =>
    show ((ing.traits_by_effects e) ++ Potion.traits_by_effects ⟨rest⟩ e).length = _
    rw [List.length_append, IH, length_ing_traits_by_effects, List.countP_cons]
    split <;> omega

theorem winner_effect {p : Potion} {e : Effect} {q : Potency}
    (h : p.winner e = some q) : q.effect = e := by
  unfold Potion.winner at h
  split at h
  · have hq := mem_dedupFirst.1 (pyMax_mem _ h)
    rcases List.mem_map.1 hq with ⟨t, ht, rfl⟩
    exact effect_of_mem_potion_traits ht
  · exact absurd h (by simp)

theorem winner_mem_max {p : Potion} {e : Effect} {q : Potency}
    (h : p.winner e = some q) :
    q ∈ (p.traits_by_effects e).map (fun t => t.potency) ∧
      ∀ t ∈ p.traits_by_effects e, t.potency.price ≤ q.price := by
  unfold Potion.winner at h
  split at h
  · refine ⟨mem_dedupFirst.1 (pyMax_mem _ h), fun t ht => ?_⟩
    exact pyMax_le _ h _ (mem_dedupFirst.2 (List.mem_map_of_mem _ ht))
  · exact absurd h (by simp)

theorem winner_isSome_iff (p : Potion) (e : Effect) :
    (p.winner e).isSome = true ↔ 1 < (p.traits_by_effects e).length := by
  unfold Potion.winner
  split
  · rename_i hlen
    refine ⟨fun _ => hlen, fun _ => ?_⟩
    apply pyMax_isSome
    intro hnil
    rw [dedupFirst_eq_nil, List.map_eq_nil_iff] at hnil
    rw [hnil] at hlen
    simp at hlen
  · rename_i hlen
    simp only [Option.isSome_none, Bool.false_eq_true, false_iff]
    exact hlen

theorem countP_filterMap_winner (p : Potion) (e : Effect) :
    ∀ (keys : List Effect), keys.Nodup →
      ((keys.filterMap p.winner).countP (fun q => decide (q.effect = e))) =
        if e ∈ keys ∧ (p.winner e).isSome = true then 1 else 0
  | [], _ => by simp
  | k :: rest, hnd => by
    rcases List.nodup_cons.1 hnd with ⟨hk, hrest⟩
    have IH := countP_filterMap_winner p e rest hrest
    by_cases hek : e = k
    · subst hek
      cases hw : p.winner e with
      | none =>
        simp only [List.filterMap_cons, hw]
        rw [IH]
        simp [hw]
      | some q =>
        have hqe : q.effect = e := winner_effect hw
        simp only [List.filterMap_cons, hw, List.countP_cons]
        rw [IH]
        simp [hw, hk, hqe]
    · have hke : k ≠ e := fun h => hek h.symm
      cases hw : p.winner k with
      | none =>
        simp only [List.filterMap_cons, hw]
        rw [IH]
        simp [List.mem_cons, hek]
      | some q =>
        have hqe : q.effect = k := winner_effect hw
        simp only [List.filterMap_cons, hw, List.countP_cons]
        rw [IH]
        simp [List.mem_cons, hek, hqe, hke]

/-- C1: for a potion built from 2 or 3 distinct ingredients, the potency
set has exactly one entry for each effect exhibited by at least two of the
ingredients and none for the other effects, and each entry is a potency of
the sharing ingredients' traits for that effect whose price is maximal
among them. -/
theorem potion_potencies_shared_max (ings : List Ingredient) (e : Effect)
    (hnd : ings.Nodup) (hlen : ings.length = 2 ∨ ings.length = 3) :
    ((Potion.mk ings).potencies.countP (fun q => decide (q.effect = e)) =
      if 2 ≤ ings.countP (fun ing => ing.traits.any (fun t => decide (t.potency.effect = e)))
      then 1 else 0)
    ∧ ∀ q ∈ (Potion.mk ings).potencies, q.effect = e →
        (q ∈ ((Potion.mk ings).traits_by_effects e).map (fun t => t.potency)
          ∧ ∀ t ∈ (Potion.mk ings).traits_by_effects e, t.potency.price ≤ q.price) := by
  constructor
  · have hperm := List.perm_insertionSort nameLe
      (((Potion.mk ings).effectKeys).filterMap (Potion.mk ings).winner)
    rw [Potion.potencies, hperm.countP_eq]
    rw [countP_filterMap_winner (Potion.mk ings) e ((Potion.mk ings).effectKeys)
      (nodup_dedupFirst (Potion.mk ings).allEffects)]
    apply if_congr _ rfl rfl
    rw [winner_isSome_iff, length_potion_traits_by_effects]
    constructor
    · rintro ⟨-, h2⟩
      omega
    · intro h2
      refine ⟨?_, by omega⟩
      have hpos : 0 < ings.countP
          (fun ing => ing.traits.any (fun t => decide (t.potency.effect = e))) := by omega
      rcases List.countP_pos_iff.1 hpos with ⟨ing, hing, hany⟩
      rcases List.any_eq_true.1 hany with ⟨t, ht, hte⟩
      show e ∈ dedupFirst (Potion.mk ings).allEffects
      apply mem_dedupFirst.2
      apply List.mem_flatMap.2
      exact ⟨ing, hing, List.mem_map.2 ⟨t, ht, of_decide_eq_true hte⟩⟩
  · intro q hq hqe
    have hperm := List.perm_insertionSort nameLe
      (((Potion.mk ings).effectKeys).filterMap (Potion.mk ings).winner)
    rw [Potion.potencies] at hq
    have hq' := hperm.mem_iff.1 hq
    rcases List.mem_filterMap.1 hq' with ⟨k, hkmem, hwk⟩
    have hke : k = e := by rw [← hqe, winner_effect hwk]
    subst hke
    exact winner_mem_max hwk

def c1eB : Effect := ⟨"E", "beneficial", 1⟩

def c1ingA : Ingredient := ⟨"A", [⟨"A", ⟨c1eB, 2, 10, 4⟩, 1⟩]⟩

def c1ingB : Ingredient := ⟨"B", [⟨"B", ⟨c1eB, 3, 10, 6⟩, 1⟩]⟩

/-- C1 witness: two distinct ingredients sharing the single effect `E`
produce exactly one potency for `E`. -/
theorem potion_potencies_shared_max_witness :
    [c1ingA, c1ingB].Nodup ∧
      (Potion.mk [c1ingA, c1ingB]).potencies.countP
        (fun q => decide (q.effect = c1eB)) = 1 := by
  have h := potion_potencies_shared_max [c1ingA, c1ingB] c1eB (by decide) (Or.inl rfl)
  refine ⟨by decide, ?_⟩
  rw [h.1]
  decide

/-! ### Purity, the redundancy filter and the builder's effects on state -/

theorem pureList_cons_cons (a b : Potency) (t : List Potency) :
    pureList (a :: b :: t) =
      (decide (a.effect.effect_type = b.effect.effect_type) && pureList (b :: t)) := rfl

theorem pureList_iff : ∀ (ps : List Potency),
    pureList ps = true ↔
      ∀ p ∈ ps, ∀ q ∈ ps, p.effect.effect_type = q.effect.effect_type
  | [] => by simp [pureList]
  | [a] => by simp [pureList]
  | a :: b :: t => by
    rw [pureList_cons_cons, Bool.and_eq_true, pureList_iff (b :: t)]
    constructor
    · rintro ⟨hab, hrest⟩
      have hab' := of_decide_eq_true hab
      have hbase : ∀ p ∈ a :: b :: t, p.effect.effect_type = b.effect.effect_type := by
        intro p hp
        rcases List.mem_cons.1 hp with rfl | hp'
        · exact hab'
        · exact hrest p hp' b (List.mem_cons_self _ _)
      intro p hp q hq
      rw [hbase p hp, hbase q hq]
    · intro hall
      refine ⟨decide_eq_true (hall a (List.mem_cons_self _ _) b ?_), fun p hp q hq => ?_⟩
      · exact List.mem_cons_of_mem _ (List.mem_cons_self _ _)
      · exact hall p (List.mem_cons_of_mem _ hp) q (List.mem_cons_of_mem _ hq)

theorem from_ingredients_some_eq (ings : List Ingredient) (s : AlchemyState) (pt : Potion)
    (h : (Potion.from_ingredients ings s).2 = some pt) :
    pt = Potion.mk ings ∧ Potion.pure (Potion.mk ings) = true := by
  simp only [Potion.from_ingredients] at h
  split at h
  · simp at h
  split at h
  · simp at h
  split at h
  · simp at h
  split at h
  · simp at h
  · rename_i hnotpure _
    simp only [Option.some.injEq] at h
    refine ⟨h.symm, ?_⟩
    cases hb : Potion.pure (Potion.mk ings)
    · exact absurd hb hnotpure
    · rfl

/-- C3: if the derived potency set mixes a beneficial and a harmful effect
the builder returns `None`, and conversely every accepted potion exposes
potencies of a single effect type. -/
theorem from_ingredients_purity (ings : List Ingredient) (s : AlchemyState) :
    ((∃ p ∈ (Potion.mk ings).potencies, p.effect.effect_type = "beneficial") →
      (∃ q ∈ (Potion.mk ings).potencies, q.effect.effect_type = "harmful") →
      (Potion.from_ingredients ings s).2 = none)
    ∧ ∀ pt, (Potion.from_ingredients ings s).2 = some pt →
        ∀ p ∈ pt.potencies, ∀ q ∈ pt.potencies,
          p.effect.effect_type = q.effect.effect_type := by
  constructor
  · rintro ⟨p, hp, hpb⟩ ⟨q, hq, hqh⟩
    cases hres : (Potion.from_ingredients ings s).2 with
    | none => rfl
    | some pt =>
      rcases from_ingredients_some_eq ings s pt hres with ⟨-, hpure⟩
      have hpq := (pureList_iff _).1 hpure p hp q hq
      rw [hpb, hqh] at hpq
      exact absurd hpq (by decide)
  · intro pt hpt p hp q hq
    rcases from_ingredients_some_eq ings s pt hpt with ⟨rfl, hpure⟩
    exact (pureList_iff _).1 hpure p hp q hq

def emptyState : AlchemyState := ⟨[], fun _ => [], fun _ => [], fun _ => []⟩

def c3eB : Effect := ⟨"E", "beneficial", 1⟩

def c3eH : Effect := ⟨"H", "harmful", 2⟩

def c3ingX : Ingredient :=
  ⟨"X", [⟨"X", ⟨c3eB, 1, 10, 1⟩, 1⟩, ⟨"X", ⟨c3eH, 1, 10, 2⟩, 2⟩]⟩

def c3ingY : Ingredient :=
  ⟨"Y", [⟨"Y", ⟨c3eB, 2, 10, 3⟩, 1⟩, ⟨"Y", ⟨c3eH, 2, 10, 4⟩, 2⟩]⟩

/-- C3 witness: two ingredients sharing one beneficial and one harmful
effect yield no potion. -/
theorem from_ingredients_purity_witness :
    (Potion.from_ingredients [c3ingX, c3ingY] emptyState).2 = none := by
  apply (from_ingredients_purity [c3ingX, c3ingY] emptyState).1
  · exact ⟨⟨c3eB, 2, 10, 3⟩, by decide, rfl⟩
  · exact ⟨⟨c3eH, 2, 10, 4⟩, by decide, rfl⟩

def c2ingA : Ingredient := ⟨"A", [⟨"A", ⟨c3eB, 1, 10, 2⟩, 1⟩]⟩

def c2ingB : Ingredient :=
  ⟨"B", [⟨"B", ⟨c3eB, 2, 10, 3⟩, 1⟩, ⟨"B", ⟨c3eH, 1, 10, 4⟩, 2⟩]⟩

def c2ingC : Ingredient := ⟨"C", [⟨"C", ⟨c3eH, 2, 10, 5⟩, 1⟩]⟩

/-- C2 counterexample: an impure triple is rejected even though every
2-element subset yields a strictly different potency set, refuting the
claimed equivalence between rejection and the existence of an equal
2-subset for an otherwise valid-and-pure potion. -/
theorem from_ingredients_improvement_counterexample :
    (Potion.from_ingredients [c2ingA, c2ingB, c2ingC] emptyState).2 = none ∧
      (∀ pr ∈ pairs [c2ingA, c2ingB, c2ingC],
        (Potion.mk [pr.1, pr.2]).potencies ≠ (Potion.mk [c2ingA, c2ingB, c2ingC]).potencies) ∧
      ¬ ((Potion.mk [c2ingA, c2ingB, c2ingC]).potencies ≠ [] ∧
          Potion.pure (Potion.mk [c2ingA, c2ingB, c2ingC]) = true ∧
          ∃ pr ∈ pairs [c2ingA, c2ingB, c2ingC],
            (Potion.mk [pr.1, pr.2]).potencies =
              (Potion.mk [c2ingA, c2ingB, c2ingC]).potencies) := by decide

/-- C2 amended: for 3 distinct ingredients whose potion is valid (nonempty
potency set) and pure, the builder returns `None` exactly when some
2-element subset yields the same potency set; when every 2-subset differs,
the potion is accepted. -/
theorem from_ingredients_improvement (ings : List Ingredient) (s : AlchemyState)
    (h3 : ings.length = 3) (hnd : ings.Nodup)
    (hv : ¬ (Potion.mk ings).potencies = [])
    (hp : Potion.pure (Potion.mk ings) = true) :
    ((Potion.from_ingredients ings s).2 = none ↔
      ∃ pr ∈ pairs ings,
        (Potion.mk [pr.1, pr.2]).potencies = (Potion.mk ings).potencies) := by
  simp only [Potion.from_ingredients]
  rw [if_neg (by rw [dedupFirst_eq_self hnd]; exact lt_irrefl _),
    if_neg hv, if_neg (by rw [hp]; simp)]
  split
  · rename_i hcond
    rcases hcond with ⟨-, hany⟩
    refine iff_of_true rfl ?_
    rcases List.any_eq_true.1 hany with ⟨pr, hpr, hdec⟩
    exact ⟨pr, hpr, of_decide_eq_true hdec⟩
  · rename_i hcond
    refine iff_of_false (by simp) ?_
    rintro ⟨pr, hpr, heq⟩
    exact hcond ⟨h3, List.any_eq_true.2 ⟨pr, hpr, decide_eq_true heq⟩⟩

def c2ingD : Ingredient := ⟨"D", [⟨"D", ⟨c3eB, 1, 10, 2⟩, 1⟩]⟩

def c2ingE : Ingredient := ⟨"E", [⟨"E", ⟨c3eB, 2, 10, 3⟩, 1⟩]⟩

def c2ingF : Ingredient := ⟨"F", [⟨"F", ⟨c3eB, 1, 20, 1⟩, 1⟩]⟩

/-- C2 witness: a valid pure triple whose pair `{D, E}` already attains the
same single winning potency is rejected as redundant. -/
theorem from_ingredients_improvement_witness :
    (Potion.from_ingredients [c2ingD, c2ingE, c2ingF] emptyState).2 = none := by
  rw [from_ingredients_improvement [c2ingD, c2ingE, c2ingF] emptyState rfl
    (by decide) (by decide) (by decide)]
  exact ⟨(c2ingD, c2ingE), by decide, by decide⟩

/-- C10: an ingredient tuple containing a duplicate is rejected up front:
the builder returns `None` and leaves every result collection unchanged. -/
theorem from_ingredients_duplicates (ings : List Ingredient) (s : AlchemyState)
    (hdup : ¬ ings.Nodup) :
    Potion.from_ingredients ings s = (s, none) := by
  simp only [Potion.from_ingredients]
  rw [if_pos (length_dedupFirst_lt hdup)]

/-- C10 witness: the duplicate pair `[A, A]` is rejected with the state
unchanged. -/
theorem from_ingredients_duplicates_witness :
    Potion.from_ingredients [c1ingA, c1ingA] emptyState = (emptyState, none) :=
  from_ingredients_duplicates [c1ingA, c1ingA] emptyState (by decide)

/-- C7 counterexample: `from_ingredients` is not free of side effects — on
acceptance it itself appends the potion to `Data.potions` (and the grouping
indices), so the result collections do change. -/
theorem from_ingredients_mutates :
    ¬ ((Potion.from_ingredients [c1ingA, c1ingB] emptyState).1.potions =
      emptyState.potions) := by decide

/-- C7 amended: the only side effect of `from_ingredients` is the insertion
of the accepted potion itself: a rejected call leaves the collections
unchanged, an accepting call updates them exactly by `insertAccepted`
(append to `Data.potions`, to both grouping indices under the potion's
keys, and to each ingredient's potion list). -/
theorem from_ingredients_frame (ings : List Ingredient) (s : AlchemyState) :
    ((Potion.from_ingredients ings s).2 = none ∧ (Potion.from_ingredients ings s).1 = s)
    ∨ ∃ pt, (Potion.from_ingredients ings s).2 = some pt ∧
        (Potion.from_ingredients ings s).1 = insertAccepted pt s := by
  simp only [Potion.from_ingredients]
  split
  · exact Or.inl ⟨rfl, rfl⟩
  split
  · exact Or.inl ⟨rfl, rfl⟩
  split
  · exact Or.inl ⟨rfl, rfl⟩
  split
  · exact Or.inl ⟨rfl, rfl⟩
  · exact Or.inr ⟨_, rfl, rfl⟩

/-! ### Structural identity of potencies (`Potency.create`) -/

/-- Coherence of the potency store: cache values carry exactly their key's
triple, `Data.potencies` lists exactly the cached instances, and keys are
never duplicated.  This holds for the empty store and is preserved by
`Potency.create`, so it holds at every point of a run. -/
structure PotencyStoreWF (st : PotencyStore) : Prop where
  keyMatches : ∀ kv ∈ st.cache,
    kv.2.effect = kv.1.1 ∧ kv.2.magnitude = kv.1.2.1 ∧ kv.2.duration = kv.1.2.2
  sameList : st.potencies = st.cache.map (fun kv => kv.2)
  nodupKeys : (st.cache.map (fun kv => kv.1)).Nodup

/-- C5: `Potency.create` preserves store coherence, a repeated call with
the same `(effect, magnitude, duration)` returns the same potency and
leaves the store untouched, the returned potency carries the requested
triple, and a coherent store never holds two distinct potencies sharing a
triple. -/
theorem potency_create_structural (priceFn : Effect → ℚ → ℤ → ℚ) (e : Effect)
    (m : ℚ) (d : ℤ) (st : PotencyStore) (hwf : PotencyStoreWF st) :
    PotencyStoreWF (Potency.create priceFn e m d st).1
    ∧ Potency.create priceFn e m d (Potency.create priceFn e m d st).1 =
        ((Potency.create priceFn e m d st).1, (Potency.create priceFn e m d st).2)
    ∧ ((Potency.create priceFn e m d st).2.effect = e ∧
        (Potency.create priceFn e m d st).2.magnitude = m ∧
        (Potency.create priceFn e m d st).2.duration = d)
    ∧ ∀ p ∈ st.potencies, ∀ q ∈ st.potencies,
        p.effect = q.effect → p.magnitude = q.magnitude → p.duration = q.duration →
          p = q := by
  have huniq : ∀ p ∈ st.potencies, ∀ q ∈ st.potencies,
      p.effect = q.effect → p.magnitude = q.magnitude → p.duration = q.duration →
        p = q := by
    intro p hp q hq h1 h2 h3
    rw [hwf.sameList] at hp hq
    rcases List.mem_map.1 hp with ⟨kv1, hkv1, rfl⟩
    rcases List.mem_map.1 hq with ⟨kv2, hkv2, rfl⟩
    rcases hwf.keyMatches kv1 hkv1 with ⟨ha1, ha2, ha3⟩
    rcases hwf.keyMatches kv2 hkv2 with ⟨hb1, hb2, hb3⟩
    have hkeys : kv1.1 = kv2.1 := by
      have e1 : kv1.1 = (kv1.2.effect, kv1.2.magnitude, kv1.2.duration) := by
        rw [ha1, ha2, ha3]
      have e2 : kv2.1 = (kv2.2.effect, kv2.2.magnitude, kv2.2.duration) := by
        rw [hb1, hb2, hb3]
      rw [e1, e2, h1, h2, h3]
    have := List.inj_on_of_nodup_map hwf.nodupKeys hkv1 hkv2 hkeys
    rw [this]
  cases hfind : st.cache.find? (fun kv => decide (kv.1 = (e, m, d))) with
  | some kv =>
    have hcr : Potency.create priceFn e m d st = (st, kv.2) := by
      simp only [Potency.create, hfind]
    have hpred := List.find?_some hfind
    have hmem := List.mem_of_find?_eq_some hfind
    have hkey : kv.1 = (e, m, d) := of_decide_eq_true hpred
    rcases hwf.keyMatches kv hmem with ⟨h1, h2, h3⟩
    rw [hcr]
    refine ⟨hwf, ?_, ⟨?_, ?_, ?_⟩, huniq⟩
    · simp only [Potency.create, hfind]
    · rw [h1, hkey]
    · rw [h2, hkey]
    · rw [h3, hkey]
  | none =>
    have hnotin : ∀ kv ∈ st.cache, kv.1 ≠ (e, m, d) := by
      intro kv hkv
      have := List.find?_eq_none.1 hfind kv hkv
      simpa using this
    have hcr : Potency.create priceFn e m d st =
        (⟨st.cache ++ [((e, m, d), ⟨e, m, d, priceFn e m d⟩)],
          st.potencies ++ [⟨e, m, d, priceFn e m d⟩]⟩, ⟨e, m, d, priceFn e m d⟩) := by
      simp only [Potency.create, hfind]
    rw [hcr]
    refine ⟨?_, ?_, ⟨rfl, rfl, rfl⟩, huniq⟩
    · refine ⟨?_, ?_, ?_⟩
      · intro kv hkv
        rcases List.mem_append.1 hkv with h | h
        · exact hwf.keyMatches kv h
        · simp only [List.mem_singleton] at h
          subst h
          exact ⟨rfl, rfl, rfl⟩
      · simp only [List.map_append, List.map_cons, List.map_nil]
        rw [hwf.sameList]
      · simp only [List.map_append, List.map_cons, List.map_nil]
        apply List.Nodup.append hwf.nodupKeys (List.nodup_singleton _)
        intro k hk hk'
        simp only [List.mem_singleton] at hk'
        rcases List.mem_map.1 hk with ⟨kv, hkv, rfl⟩
        exact hnotin kv hkv hk'
    · have hfind2 : (st.cache ++ [((e, m, d), (⟨e, m, d, priceFn e m d⟩ : Potency))]).find?
          (fun kv => decide (kv.1 = (e, m, d))) =
          some ((e, m, d), ⟨e, m, d, priceFn e m d⟩) := by
        rw [List.find?_append, hfind]
        simp
      simp only [Potency.create, hfind2]

/-- C5 witness: creating `(E, 1, 2)` twice from the empty store returns the
same potency without changing the store. -/
theorem potency_create_structural_witness :
    Potency.create (fun _ _ _ => 0) ⟨"E", "beneficial", 1⟩ 1 2
        ((Potency.create (fun _ _ _ => 0) ⟨"E", "beneficial", 1⟩ 1 2 ⟨[], []⟩).1) =
      ((Potency.create (fun _ _ _ => 0) ⟨"E", "beneficial", 1⟩ 1 2 ⟨[], []⟩).1,
        (Potency.create (fun _ _ _ => 0) ⟨"E", "beneficial", 1⟩ 1 2 ⟨[], []⟩).2) := by
  have hwf0 : PotencyStoreWF ⟨[], []⟩ := ⟨by simp, rfl, by simp⟩
  exact (potency_create_structural (fun _ _ _ => 0) ⟨"E", "beneficial", 1⟩ 1 2
    ⟨[], []⟩ hwf0).2.1

/-! ### The compatibility index retains `self` (alchemy.py variant) -/

def c6eE : Effect := ⟨"E", "beneficial", 1⟩

def c6eF : Effect := ⟨"F", "beneficial", 1⟩

def c6tA1 : Trait := ⟨"A", ⟨c6eE, 1, 10, 1⟩, 1⟩

def c6tA2 : Trait := ⟨"A", ⟨c6eF, 1, 10, 1⟩, 2⟩

def c6tB1 : Trait := ⟨"B", ⟨c6eE, 2, 10, 2⟩, 1⟩

def c6ingA : Ingredient := ⟨"A", [c6tA1, c6tA2]⟩

def c6ingB : Ingredient := ⟨"B", [c6tB1]⟩

def c6store : Store := ⟨[c6ingA, c6ingB], [c6tA1, c6tA2, c6tB1]⟩

/-- C6: the alchemy.py compatibility index evaluated on an ingredient `A`
with two traits returns `[A, B]` — `A` occurs once per own trait and the
single `remove` deletes only one occurrence, so `A` remains in its own
compatibility list; the modular set-based variant correctly excludes it. -/
theorem compatible_ingredients_retains_self :
    Ingredient.compatible_ingredients c6store c6ingA = [c6ingA, c6ingB] ∧
      c6ingA ∈ Ingredient.compatible_ingredients c6store c6ingA ∧
      c6ingA ∉ Ingredient.compatible_ingredients_set c6store c6ingA ∧
      c6ingB ∈ Ingredient.compatible_ingredients_set c6store c6ingA := by decide

/-! ### Order (in)dependence of the potency derivation

Python iterates the per-effect trait set in an unspecified (hash/identity
dependent) order, so `max(..., key=price)` is only determined up to price
ties.  The two lemma groups below show (i) a price tie makes the derived
potency set depend on that incidental order, and (ii) without ties (and
with effect names injective, as they are for the loaded data) the
derivation is invariant under any reordering of the ingredient set. -/

def c8eT : Effect := ⟨"T", "harmful", 1⟩

def c8ingA : Ingredient := ⟨"A", [⟨"A", ⟨c8eT, 2, 50, 10⟩, 1⟩]⟩

def c8ingB : Ingredient := ⟨"B", [⟨"B", ⟨c8eT, 10, 10, 10⟩, 1⟩]⟩

/-- C8 counterexample: two ingredients exhibiting the same effect through
distinct equal-priced potencies: enumerating the same ingredient set in the
two possible orders yields different potency sets, so the result is not
independent of the incidental iteration order. -/
theorem potion_potencies_order_dependent :
    [c8ingA, c8ingB].Perm [c8ingB, c8ingA] ∧
      (Potion.mk [c8ingA, c8ingB]).potencies ≠ (Potion.mk [c8ingB, c8ingA]).potencies :=
  ⟨List.Perm.swap _ _ _, by decide⟩

theorem perm_dedupFirst_of_perm {α : Type} [DecidableEq α] {l l' : List α}
    (h : l.Perm l') : (dedupFirst l).Perm (dedupFirst l') := by
  apply (List.perm_ext_iff_of_nodup (nodup_dedupFirst _) (nodup_dedupFirst _)).2
  intro a
  rw [mem_dedupFirst, mem_dedupFirst]
  exact h.mem_iff

theorem pyMax_eq_none_iff {α : Type} (key : α → ℚ) {l : List α} :
    pyMax key l = none ↔ l = [] := by
  cases l <;> simp [pyMax]

theorem pyMax_eq_of_perm {α : Type} (key : α → ℚ) {l l' : List α} (h : l.Perm l')
    (huniq : ∀ x ∈ l, ∀ y ∈ l, key x = key y → x = y) :
    pyMax key l = pyMax key l' := by
  cases hl : pyMax key l with
  | none =>
    have hnil : l = [] := (pyMax_eq_none_iff key).1 hl
    subst hnil
    have : l' = [] := h.nil_eq.symm
    subst this
    rfl
  | some x =>
    cases hl' : pyMax key l' with
    | none =>
      have hnil : l' = [] := (pyMax_eq_none_iff key).1 hl'
      subst hnil
      have : l = [] := h.symm.nil_eq.symm
      subst this
      simp [pyMax] at hl
    | some y =>
      have hx : x ∈ l := pyMax_mem key hl
      have hy : y ∈ l := h.mem_iff.2 (pyMax_mem key hl')
      have h1 : key y ≤ key x := pyMax_le key hl y hy
      have h2 : key x ≤ key y := pyMax_le key hl' x (h.mem_iff.1 hx)
      rw [huniq x hx y hy (le_antisymm h2 h1)]

theorem mem_allEffects_of_mem_tbe {ings : List Ingredient} {e : Effect} {t : Trait}
    (ht : t ∈ Potion.traits_by_effects ⟨ings⟩ e) : e ∈ Potion.allEffects ⟨ings⟩ := by
  rcases List.mem_flatMap.1 ht with ⟨ing, hing, ht'⟩
  rcases mem_ing_traits_by_effects ht' with ⟨htr, hte⟩
  exact List.mem_flatMap.2 ⟨ing, hing, List.mem_map.2 ⟨t, htr, hte⟩⟩

theorem winner_eq_of_perm {ings ings' : List Ingredient} (hperm : ings.Perm ings')
    (htie : ∀ e ∈ Potion.allEffects ⟨ings⟩,
      ∀ p1 ∈ (Potion.traits_by_effects ⟨ings⟩ e).map (fun t => t.potency),
      ∀ p2 ∈ (Potion.traits_by_effects ⟨ings⟩ e).map (fun t => t.potency),
        p1.price = p2.price → p1 = p2)
    (e : Effect) : (Potion.mk ings).winner e = (Potion.mk ings').winner e := by
  have hgrp : (Potion.traits_by_effects ⟨ings⟩ e).Perm (Potion.traits_by_effects ⟨ings'⟩ e) :=
    hperm.flatMap_right _
  unfold Potion.winner
  by_cases hlen : 1 < (Potion.traits_by_effects ⟨ings⟩ e).length
  · rw [if_pos hlen, if_pos (by rw [← hgrp.length_eq]; exact hlen)]
    apply pyMax_eq_of_perm _ (perm_dedupFirst_of_perm (hgrp.map _))
    intro x hx y hy hxy
    have hxm := mem_dedupFirst.1 hx
    have hym := mem_dedupFirst.1 hy
    have hne : Potion.traits_by_effects ⟨ings⟩ e ≠ [] := by
      intro hnil
      rw [hnil] at hlen
      simp at hlen
    rcases List.exists_mem_of_ne_nil _ hne with ⟨t, htmem⟩
    exact htie e (mem_allEffects_of_mem_tbe htmem) x hxm y hym hxy
  · rw [if_neg hlen, if_neg (by rw [← hgrp.length_eq]; exact hlen)]

theorem nodup_names_filterMap_winner (p : Potion)
    (hinj : ∀ e1 ∈ p.allEffects, ∀ e2 ∈ p.allEffects, e1.name = e2.name → e1 = e2) :
    ∀ (keys : List Effect), keys.Nodup → (∀ k ∈ keys, k ∈ p.allEffects) →
      ((keys.filterMap p.winner).map (fun q => q.effect.name)).Nodup
  | [], _, _ => by simp
  | k :: rest, hnd, hsub => by
    rcases List.nodup_cons.1 hnd with ⟨hk, hrest⟩
    have IH := nodup_names_filterMap_winner p hinj rest hrest
      (fun k' hk' => hsub k' (List.mem_cons_of_mem _ hk'))
    cases hw : p.winner k with
    | none => simpa [List.filterMap_cons, hw] using IH
    | some q =>
      simp only [List.filterMap_cons, hw, List.map_cons, List.nodup_cons]
      refine ⟨?_, IH⟩
      intro hmem
      rcases List.mem_map.1 hmem with ⟨q', hq', hname⟩
      rcases List.mem_filterMap.1 hq' with ⟨k', hk', hw'⟩
      have h1 : q.effect = k := winner_effect hw
      have h2 : q'.effect = k' := winner_effect hw'
      have hkk : k' = k := by
        apply hinj k' (hsub k' (List.mem_cons_of_mem _ hk')) k
          (hsub k (List.mem_cons_self _ _))
        rw [← h1, ← h2]
        exact hname
      rw [hkk] at hk'
      exact hk hk'

theorem string_data_inj {s1 s2 : String} (h : s1.data = s2.data) : s1 = s2 := by
  cases s1
  cases s2
  simp only at h
  rw [h]

theorem eq_of_perm_sorted_nodup_names :
    ∀ {l1 l2 : List Potency}, l1.Perm l2 → l1.Sorted nameLe → l2.Sorted nameLe →
      (l1.map (fun q => q.effect.name)).Nodup → l1 = l2
  | [], l2, hp, _, _, _ => hp.nil_eq
  | a :: t1, [], hp, _, _, _ => absurd hp.symm.nil_eq (by simp)
  | a :: t1, b :: t2, hp, hs1, hs2, hn => by
    have hab : a = b := by
      by_contra hne
      have hbmem : b ∈ a :: t1 := hp.mem_iff.2 (List.mem_cons_self _ _)
      have hamem : a ∈ b :: t2 := hp.mem_iff.1 (List.mem_cons_self _ _)
      have hbt1 : b ∈ t1 := by
        rcases List.mem_cons.1 hbmem with h | h
        · exact absurd h.symm hne
        · exact h
      have hat2 : a ∈ t2 := by
        rcases List.mem_cons.1 hamem with h | h
        · exact absurd h hne
        · exact h
      have h1 : nameLe a b := (List.sorted_cons.1 hs1).1 b hbt1
      have h2 : nameLe b a := (List.sorted_cons.1 hs2).1 a hat2
      have hnames : a.effect.name = b.effect.name :=
        string_data_inj (le_antisymm h1 h2)
      have hmap := hn
      rw [List.map_cons, List.nodup_cons] at hmap
      exact hmap.1 (List.mem_map.2 ⟨b, hbt1, hnames.symm⟩)
    subst hab
    have hp' : t1.Perm t2 := hp.cons_inv
    have hrec := eq_of_perm_sorted_nodup_names hp' (List.sorted_cons.1 hs1).2
      (List.sorted_cons.1 hs2).2 (by rw [List.map_cons, List.nodup_cons] at hn; exact hn.2)
    rw [hrec]

/-- C8 amended: the potency derivation is a pure function of the ingredient
set — for a fixed input it does not depend on the enumeration order —
provided no two distinct potencies of a shared effect tie in price (the
flagged open tie-break question) and effect names are injective (they are
the unique keys of the loaded data): any permutation of the ingredient list
derives an identical potency list, hence identical prices. -/
theorem potion_potencies_perm_invariant (ings ings' : List Ingredient)
    (hperm : ings.Perm ings')
    (htie : ∀ e ∈ Potion.allEffects ⟨ings⟩,
      ∀ p1 ∈ (Potion.traits_by_effects ⟨ings⟩ e).map (fun t => t.potency),
      ∀ p2 ∈ (Potion.traits_by_effects ⟨ings⟩ e).map (fun t => t.potency),
        p1.price = p2.price → p1 = p2)
    (hinj : ∀ e1 ∈ Potion.allEffects ⟨ings⟩, ∀ e2 ∈ Potion.allEffects ⟨ings⟩,
      e1.name = e2.name → e1 = e2) :
    (Potion.mk ings).potencies = (Potion.mk ings').potencies := by
  have hfun : (Potion.mk ings).winner = (Potion.mk ings').winner :=
    funext (winner_eq_of_perm hperm htie)
  have hkeys : (Potion.mk ings).effectKeys.Perm (Potion.mk ings').effectKeys :=
    perm_dedupFirst_of_perm (hperm.flatMap_right _)
  have hfm : ((Potion.mk ings).effectKeys.filterMap (Potion.mk ings).winner).Perm
      ((Potion.mk ings').effectKeys.filterMap (Potion.mk ings').winner) := by
    rw [← hfun]
    exact hkeys.filterMap _
  have hnames : (((Potion.mk ings).effectKeys.filterMap
      (Potion.mk ings).winner).map (fun q => q.effect.name)).Nodup := by
    apply nodup_names_filterMap_winner (Potion.mk ings) hinj _
      (nodup_dedupFirst _)
    intro k hk
    exact mem_dedupFirst.1 hk
  show List.insertionSort nameLe _ = List.insertionSort nameLe _
  apply eq_of_perm_sorted_nodup_names
  · exact ((List.perm_insertionSort nameLe _).trans hfm).trans
      (List.perm_insertionSort nameLe _).symm
  · exact List.sorted_insertionSort nameLe _
  · exact List.sorted_insertionSort nameLe _
  · have hpm := (List.perm_insertionSort nameLe
      ((Potion.mk ings).effectKeys.filterMap (Potion.mk ings).winner)).map
      (fun q => q.effect.name)
    exact hpm.nodup_iff.2 hnames

/-- C8 witness: the two enumeration orders of a tie-free two-ingredient set
sharing two distinctly named effects derive the same potency list. -/
theorem potion_potencies_perm_invariant_witness :
    (Potion.mk [c3ingX, c3ingY]).potencies = (Potion.mk [c3ingY, c3ingX]).potencies :=
  potion_potencies_perm_invariant [c3ingX, c3ingY] [c3ingY, c3ingX]
    (List.Perm.swap _ _ _) (by decide) (by decide)

end SkyrimAlchemy
